import Mathlib

/-!
Shallow embedding of the `tfbs-scan` core (`src/lib.rs`): a position-weight
matrix (PWM) scanner for DNA sequences.  Machine floats (`f64`) are embedded
as real numbers; Rust panics are embedded as `Option.none` at the function
that panics or at its caller; Rust slice indexing that is in bounds on every
reachable input is embedded with `List.getD`.
-/

namespace TFBS

/-- A DNA sequence: the retained bases together with the original string
index of each (`idxs`), needed because the input may contain alignment
gaps. -/
structure Sequence where
  idxs : List Nat
  bases : List Char
deriving Repr, DecidableEq

/-- `impl From<&str> for Sequence`: walk the characters with their indices,
drop the gap character `'-'`, and push index and base of every other
character in order.  The string is embedded as its list of characters, and
`char_indices` as `List.enum` (for the ASCII alphabet handled here, byte
index and character index agree).  No base validation happens here. -/
def Sequence.fromStr (seq : List Char) : Sequence :=
  (seq.enum.filter (fun b => !(b.2 == '-'))).foldl
    (fun s b => { idxs := s.idxs ++ [b.1], bases := s.bases ++ [b.2] })
    { idxs := [], bases := [] }

/-- DNA strand, forward or reverse. -/
inductive Strand where
  | Forward
  | Reverse
deriving Repr, DecidableEq

/-- A reported match: 1-based bounds in gap-free coordinates
(`seq_start`/`seq_end`), bounds mapped back to the original gapped string
(`algn_start`/`algn_end`), and the normalized score. -/
structure Score where
  seq_start : Nat
  seq_end : Nat
  algn_start : Nat
  algn_end : Nat
  score : ℝ

/-- The weight matrix with its eagerly derived fields. -/
structure DNAMatrix where
  name : String
  length : Nat
  probs : List (List ℝ)
  conservation : List ℝ
  max_score : ℝ
  threshold : ℝ
  strand : Strand

/-- `DNAMatrix::comp_rev_counts`: reverse the row order, then reverse each
row in place. -/
def DNAMatrix.comp_rev_counts (v : List (List ℝ)) : List (List ℝ) :=
  v.reverse.map List.reverse

/-- The source folds `f64::max` starting from `f64::NEG_INFINITY`.  On a
nonempty list of reals that fold equals folding `max` from the head element;
the initial `-∞` survives only when the list is empty, and in every use
below the empty case's value is discarded (an empty counts table produces no
probability rows, and a constructed matrix has no empty probability row), so
the empty case returns an unused default of `0`. -/
def foldMaxNegInf (l : List ℝ) : ℝ :=
  match l with
  | [] => 0
  | x :: xs => xs.foldl max x

/-- `DNAMatrix::calculate_probs`: normalize each 4-value counts row by the
largest row sum `max_count` and append the residual `1 - rowSum/max_count`.
The `panic!` on a row whose length is not 4 is embedded as `none`. -/
noncomputable def DNAMatrix.calculate_probs (counts : List (List ℝ)) : Option (List (List ℝ)) :=
  let max_count : ℝ := foldMaxNegInf (counts.map (fun x => x.sum))
  counts.mapM (fun position =>
    if position.length ≠ 4 then none
    else some ((position.map (fun x => x / max_count)) ++ [1 - position.sum / max_count]))

/-- `DNAMatrix::calculate_conservation`: per probability row, the sum of
`x * ln x` over the strictly positive entries, divided by `ln (row length)`,
plus 1. -/
noncomputable def DNAMatrix.calculate_conservation (probs : List (List ℝ)) : List ℝ :=
  probs.map (fun position =>
    (position.foldl (fun acc x => if x > 0 then acc + x * Real.log x else acc) 0)
      / Real.log (position.length : ℝ) + 1)

/-- `DNAMatrix::calculate_max_score`: per row, the `f64::max` fold over the
first 4 entries, then `Σ conservation[i] * rowMax[i]` accumulated from 0.
`self.conservation[i]` is always in bounds (conservation and probs have equal
length in a constructed matrix), embedded as `getD`. -/
noncomputable def DNAMatrix.calculate_max_score
    (probs : List (List ℝ)) (conservation : List ℝ) : ℝ :=
  ((probs.map (fun p => foldMaxNegInf (p.take 4))).enum).foldl
    (fun acc v => acc + conservation.getD v.1 0 * v.2) 0

/-- `DNAMatrix::new`: derive `probs` from the (strand-transformed) counts —
propagating the malformed-row panic as `none` — then fill in `conservation`
and `max_score` exactly as the two in-place passes do. -/
noncomputable def DNAMatrix.new (name : String) (threshold : ℝ)
    (counts : List (List ℝ)) (strand : Strand) : Option DNAMatrix :=
  (match strand with
    | Strand.Forward => DNAMatrix.calculate_probs counts
    | Strand.Reverse => DNAMatrix.calculate_probs (DNAMatrix.comp_rev_counts counts)).map
    (fun probs =>
      let conservation := DNAMatrix.calculate_conservation probs
      { name := name
        length := counts.length
        probs := probs
        conservation := conservation
        max_score := DNAMatrix.calculate_max_score probs conservation
        threshold := threshold
        strand := strand })

/-- `DNAMatrix::lookup`: base to column index; the panic on an unrecognized
base is embedded as `none`. -/
def DNAMatrix.lookup (b : Char) : Option Nat :=
  match b with
  | 'A' | 'a' => some 0
  | 'C' | 'c' => some 1
  | 'G' | 'g' => some 2
  | 'T' | 't' => some 3
  | _ => none

/-- Rust `slice::windows(n)` for `n ≥ 1`: the `len - n + 1` contiguous
subslices of length `n` (none when `n > len`).  `windows(0)` panics in Rust
and is excluded by the caller (`scan` handles `length = 0` before this). -/
def windowsL (l : List Char) (n : Nat) : List (List Char) :=
  (List.range (l.length + 1 - n)).map (fun i => (l.drop i).take n)

/-- `DNAMatrix::scan`: score every window of `m.length` bases and keep the
scores at or above `m.threshold`.  A `length` of 0 makes `windows` panic
(`none` here); an unrecognized base panics inside the window fold (`none`
propagated through `mapM`/`foldlM`).  `probs[i][j]`, `conservation[i]` and
`idxs[i + s - 1]` are in bounds on every input reachable from a constructed
matrix and a window that exists, embedded as `getD`. -/
noncomputable def DNAMatrix.scan (m : DNAMatrix) (seq : Sequence) : Option (List Score) :=
  if m.length = 0 then none
  else
    let se : Nat × Nat :=
      match m.strand with
      | Strand.Forward => (1, m.length)
      | Strand.Reverse => (m.length, 1)
    ((windowsL seq.bases m.length).mapM (fun (w : List Char) =>
        w.enum.foldlM (fun acc ib =>
          (DNAMatrix.lookup ib.2).map (fun j =>
            acc + (m.probs.getD ib.1 []).getD j 0 * m.conservation.getD ib.1 0)) 0)).map
      (fun raws =>
        (raws.enum.map (fun v =>
          ({ seq_start := v.1 + se.1
             seq_end := v.1 + se.2
             algn_start := seq.idxs.getD (v.1 + se.1 - 1) 0 + 1
             algn_end := seq.idxs.getD (v.1 + se.2 - 1) 0 + 1
             score := v.2 / m.max_score } : Score))).filter
          (fun sc => decide (sc.score ≥ m.threshold)))

/-! ### Spec-side definitions

These render the claims' formulas in the spec's words, to be compared with
the embedded code above. -/

/-- The characters the spec's lookup accepts: A, C, G, T in either case. -/
def validBase (b : Char) : Prop :=
  b ∈ (['A', 'C', 'G', 'T', 'a', 'c', 'g', 't'] : List Char)

instance : DecidablePred validBase := fun b => by
  unfold validBase; infer_instance

/-- Spec-side total lookup: maps A/a to 0, C/c to 1, G/g to 2, T/t to 3
(meaningful only on valid bases). -/
def lookupSpec (b : Char) : Nat :=
  if b = 'A' ∨ b = 'a' then 0
  else if b = 'C' ∨ b = 'c' then 1
  else if b = 'G' ∨ b = 'g' then 2
  else 3

/-- Spec-side raw window score at window start `i`:
`Σ over k in [0, L) of probs[k][lookup(bases[i+k])] * conservation[k]`. -/
noncomputable def rawSpec (m : DNAMatrix) (seq : Sequence) (i : Nat) : ℝ :=
  ((List.range m.length).map (fun k =>
    (m.probs.getD k []).getD (lookupSpec (seq.bases.getD (i + k) 'A')) 0
      * m.conservation.getD k 0)).sum

/-- Spec-side scan: the windows `i` in `[0, len − L]` whose normalized score
`rawSpec/maxScore` is at or above the threshold, in ascending window order,
each carrying the normalized value and the coordinate fields. -/
noncomputable def scanSpec (m : DNAMatrix) (seq : Sequence) : List Score :=
  let se : Nat × Nat :=
    match m.strand with
    | Strand.Forward => (1, m.length)
    | Strand.Reverse => (m.length, 1)
  ((List.range (seq.bases.length + 1 - m.length)).filter
    (fun i => decide (rawSpec m seq i / m.max_score ≥ m.threshold))).map
    (fun i =>
      { seq_start := i + se.1
        seq_end := i + se.2
        algn_start := seq.idxs.getD (i + se.1 - 1) 0 + 1
        algn_end := seq.idxs.getD (i + se.2 - 1) 0 + 1
        score := rawSpec m seq i / m.max_score })

/-! ### Helper lemmas -/

lemma lookup_eq_of_valid {b : Char} (h : validBase b) :
    DNAMatrix.lookup b = some (lookupSpec b) := by
  unfold validBase at h
  simp only [List.mem_cons, List.not_mem_nil, or_false] at h
  rcases h with rfl | rfl | rfl | rfl | rfl | rfl | rfl | rfl <;> decide

lemma foldlM_lookup_enumFrom (g : Nat → Nat → ℝ) (w : List Char)
    (hw : ∀ b ∈ w, validBase b) (n : Nat) (acc : ℝ) :
    (w.enumFrom n).foldlM (fun a ib =>
        (DNAMatrix.lookup ib.2).map (fun j => a + g ib.1 j)) acc
      = some (acc + ((List.range w.length).map
          (fun k => g (n + k) (lookupSpec (w.getD k 'A')))).sum) := by
  induction w generalizing n acc with
  | nil => simp
  | cons c cs ih =>
    rw [List.enumFrom_cons, List.foldlM_cons,
      lookup_eq_of_valid (hw c (List.mem_cons_self c cs))]
    show ((some (acc + g n (lookupSpec c))).bind fun a =>
      (cs.enumFrom (n + 1)).foldlM _ a) = _
    rw [Option.some_bind, ih (fun b hb => hw b (List.mem_cons_of_mem c hb))]
    congr 1
    rw [List.length_cons, List.range_succ_eq_map, List.map_cons, List.map_map,
      List.sum_cons, ← add_assoc]
    have htail : List.map ((fun k => g (n + k) (lookupSpec ((c :: cs).getD k 'A')))
          ∘ Nat.succ) (List.range cs.length)
        = List.map (fun k => g (n + 1 + k) (lookupSpec (cs.getD k 'A')))
          (List.range cs.length) := by
      refine List.map_congr_left fun k _ => ?_
      simp only [Function.comp_apply, Nat.succ_eq_add_one, List.getD_cons_succ]
      congr 1
      omega
    rw [htail]
    simp

lemma mapM_eq_map_of_some {α β : Type} (f : α → Option β) (g : α → β)
    (l : List α) (h : ∀ a ∈ l, f a = some (g a)) :
    l.mapM f = some (l.map g) := by
  induction l with
  | nil => rfl
  | cons a as ih =>
    rw [List.mapM_cons, h a (List.mem_cons_self a as),
      ih (fun x hx => h x (List.mem_cons_of_mem a hx))]
    rfl

lemma zip_self_eq_map {α : Type} (l : List α) :
    l.zip l = l.map (fun a => (a, a)) := by
  induction l with
  | nil => rfl
  | cons a as ih => simp [ih]

lemma enum_map_range {β : Type} (f : Nat → β) (W : Nat) :
    ((List.range W).map f).enum = (List.range W).map (fun i => (i, f i)) := by
  rw [List.enum_map, List.enum_eq_zip_range, List.length_range,
    zip_self_eq_map, List.map_map]
  rfl

lemma enum_foldlM_eq_enumFrom {α : Type} (l : List α) :
    l.enum = l.enumFrom 0 := rfl

lemma window_fold_eq (m : DNAMatrix) (seq : Sequence) (i : Nat)
    (hval : ∀ b ∈ seq.bases, validBase b)
    (hiL : i + m.length ≤ seq.bases.length) :
    (((seq.bases.drop i).take m.length).enum.foldlM (fun acc ib =>
        (DNAMatrix.lookup ib.2).map (fun j =>
          acc + (m.probs.getD ib.1 []).getD j 0 * m.conservation.getD ib.1 0)) (0:ℝ))
      = some (rawSpec m seq i) := by
  have hw : ∀ b ∈ (seq.bases.drop i).take m.length, validBase b :=
    fun b hb => hval b (List.mem_of_mem_drop (List.mem_of_mem_take hb))
  have hlen : ((seq.bases.drop i).take m.length).length = m.length := by
    simp only [List.length_take, List.length_drop]
    omega
  rw [enum_foldlM_eq_enumFrom,
    foldlM_lookup_enumFrom (fun k j => (m.probs.getD k []).getD j 0
      * m.conservation.getD k 0) _ hw 0 0]
  congr 1
  rw [zero_add, hlen, rawSpec]
  refine congrArg List.sum (List.map_congr_left fun k hk => ?_)
  have hkL : k < m.length := List.mem_range.mp hk
  have hget : ((seq.bases.drop i).take m.length).getD k 'A'
      = seq.bases.getD (i + k) 'A' := by
    simp only [List.getD_eq_getElem?_getD]
    rw [List.getElem?_take_of_lt hkL, List.getElem?_drop]
  rw [zero_add, hget]

lemma mapM_map_eq_map_of_some {α β γ : Type} (h : α → β) (f : β → Option γ)
    (g : α → γ) (l : List α) (hfg : ∀ a ∈ l, f (h a) = some (g a)) :
    (l.map h).mapM f = some (l.map g) := by
  induction l with
  | nil => rfl
  | cons a as ih =>
    rw [List.map_cons, List.mapM_cons, hfg a (List.mem_cons_self a as),
      List.map_cons, ih (fun x hx => hfg x (List.mem_cons_of_mem a hx))]
    rfl

lemma scan_raws (m : DNAMatrix) (seq : Sequence)
    (hval : ∀ b ∈ seq.bases, validBase b)
    (hlen : m.length ≤ seq.bases.length) :
    ((windowsL seq.bases m.length).mapM (fun (w : List Char) =>
        w.enum.foldlM (fun acc ib =>
          (DNAMatrix.lookup ib.2).map (fun j =>
            acc + (m.probs.getD ib.1 []).getD j 0 * m.conservation.getD ib.1 0)) (0:ℝ)))
      = some ((List.range (seq.bases.length + 1 - m.length)).map (rawSpec m seq)) := by
  rw [windowsL]
  refine mapM_map_eq_map_of_some _ _ _ _ fun i hi => ?_
  have hiW : i < seq.bases.length + 1 - m.length := List.mem_range.mp hi
  exact window_fold_eq m seq i hval (by omega)

lemma map_filter_step (s e : Nat) (seq : Sequence) (mx th : ℝ) (W : Nat)
    (r : Nat → ℝ) :
    (((List.range W).map r).enum.map (fun v =>
        ({ seq_start := v.1 + s
           seq_end := v.1 + e
           algn_start := seq.idxs.getD (v.1 + s - 1) 0 + 1
           algn_end := seq.idxs.getD (v.1 + e - 1) 0 + 1
           score := v.2 / mx } : Score))).filter
      (fun sc => decide (sc.score ≥ th))
    = ((List.range W).filter (fun i => decide (r i / mx ≥ th))).map (fun i =>
        ({ seq_start := i + s
           seq_end := i + e
           algn_start := seq.idxs.getD (i + s - 1) 0 + 1
           algn_end := seq.idxs.getD (i + e - 1) 0 + 1
           score := r i / mx } : Score)) := by
  rw [enum_map_range, List.map_map, List.filter_map]
  rfl

lemma mapM_eq_none_iff {α β : Type} (f : α → Option β) (l : List α) :
    l.mapM f = none ↔ ∃ a ∈ l, f a = none := by
  induction l with
  | nil =>
    constructor
    · intro h
      exact absurd h (by simp [List.mapM, List.mapM.loop])
    · rintro ⟨a, ha, _⟩
      cases ha
  | cons a as ih =>
    rw [List.mapM_cons]
    cases hfa : f a with
    | none =>
      constructor
      · intro _
        exact ⟨a, List.mem_cons_self a as, hfa⟩
      · intro _
        rfl
    | some b =>
      cases hrest : as.mapM f with
      | none =>
        constructor
        · intro _
          rcases ih.mp hrest with ⟨x, hx, hfx⟩
          exact ⟨x, List.mem_cons_of_mem a hx, hfx⟩
        · intro _
          rfl
      | some bs =>
        have hno : ¬ ∃ x ∈ as, f x = none := fun hex => by
          rw [ih.mpr hex] at hrest
          exact Option.noConfusion hrest
        constructor
        · intro hcontra
          exact absurd hcontra (by simp)
        · rintro ⟨x, hx, hfx⟩
          rcases List.mem_cons.mp hx with rfl | hx
          · rw [hfa] at hfx
            exact Option.noConfusion hfx
          · exact absurd ⟨x, hx, hfx⟩ hno

lemma calculate_probs_eq_none_iff (counts : List (List ℝ)) :
    DNAMatrix.calculate_probs counts = none ↔ ∃ row ∈ counts, row.length ≠ 4 := by
  unfold DNAMatrix.calculate_probs
  rw [mapM_eq_none_iff]
  constructor
  · rintro ⟨row, hrow, hf⟩
    refine ⟨row, hrow, fun h4 => ?_⟩
    rw [if_neg (by simp [h4])] at hf
    exact Option.noConfusion hf
  · rintro ⟨row, hrow, h4⟩
    exact ⟨row, hrow, by rw [if_pos (by simpa using h4)]⟩

lemma calculate_probs_eq_some (counts : List (List ℝ))
    (h : ∀ row ∈ counts, row.length = 4) :
    DNAMatrix.calculate_probs counts
      = some (counts.map (fun position =>
          (position.map (fun x => x / foldMaxNegInf (counts.map (fun x => x.sum))))
            ++ [1 - position.sum / foldMaxNegInf (counts.map (fun x => x.sum))])) := by
  unfold DNAMatrix.calculate_probs
  refine mapM_eq_map_of_some _ _ _ fun row hrow => ?_
  rw [if_neg (by simp [h row hrow])]

/-! ### Claims -/

/-- C1: for every matrix with length `L ≥ 1` and nonzero `max_score` and
every sequence whose bases are all in `{A,C,G,T,a,c,g,t}` with at least `L`
bases, `scan` returns (without a panic) exactly the windows
`i ∈ [0, len − L]` whose normalized score `raw/maxScore` is at or above the
threshold, in ascending window order, where
`raw = Σ k < L, probs[k][lookup(bases[i+k])] * conservation[k]` with
`lookup` mapping `A/a↦0, C/c↦1, G/g↦2, T/t↦3`, and each emitted `Score`
carries that normalized value. -/
theorem scan_eq_scanSpec (m : DNAMatrix) (seq : Sequence)
    (hL : 1 ≤ m.length) (_hmax : m.max_score ≠ 0)
    (hval : ∀ b ∈ seq.bases, validBase b)
    (hlen : m.length ≤ seq.bases.length) :
    m.scan seq = some (scanSpec m seq) := by
  have hL0 : ¬ m.length = 0 := by omega
  rcases hst : m.strand with _ | _ <;>
  · simp only [DNAMatrix.scan, scanSpec, hst, if_neg hL0]
    rw [scan_raws m seq hval hlen, Option.map_some']
    exact congrArg some (map_filter_step _ _ seq m.max_score m.threshold _ _)

/-- C8: construction (for either strand) fails with the malformed-matrix
panic — embedded as `none` — iff some counts row does not have exactly 4
values; conversely, when every row has exactly 4 values a matrix is
produced. -/
theorem new_malformed_iff (name : String) (threshold : ℝ)
    (counts : List (List ℝ)) (strand : Strand) :
    DNAMatrix.new name threshold counts strand = none
      ↔ ∃ row ∈ counts, row.length ≠ 4 := by
  cases strand with
  | Forward =>
    simp only [DNAMatrix.new, Option.map_eq_none']
    exact calculate_probs_eq_none_iff counts
  | Reverse =>
    simp only [DNAMatrix.new, Option.map_eq_none']
    rw [calculate_probs_eq_none_iff]
    constructor
    · rintro ⟨row, hrow, hlen⟩
      unfold DNAMatrix.comp_rev_counts at hrow
      rcases List.mem_map.mp hrow with ⟨r, hr, rfl⟩
      exact ⟨r, List.mem_reverse.mp hr, by simpa using hlen⟩
    · rintro ⟨row, hrow, hlen⟩
      refine ⟨row.reverse, ?_, by simpa using hlen⟩
      unfold DNAMatrix.comp_rev_counts
      exact List.mem_map.mpr ⟨row, List.mem_reverse.mpr hrow, rfl⟩

/-- C10: an empty counts table constructs successfully — no malformed-matrix
error — yielding a matrix with length 0, empty probs and conservation, and
maxScore 0; but `scan` with any length-0 matrix hits the `windows(0)` panic
(embedded as `none`) on every sequence, including the empty one. -/
theorem new_empty_and_scan_len0 (m : DNAMatrix) (seq : Sequence)
    (name : String) (t : ℝ) (strand : Strand) (h : m.length = 0) :
    DNAMatrix.new name t [] strand
        = some { name := name, length := 0, probs := [], conservation := [],
                 max_score := 0, threshold := t, strand := strand } ∧
    m.scan seq = none := by
  constructor
  · cases strand <;>
      simp [DNAMatrix.new, DNAMatrix.calculate_probs, DNAMatrix.comp_rev_counts,
        DNAMatrix.calculate_conservation, DNAMatrix.calculate_max_score,
        List.mapM, List.mapM.loop]
  · simp [DNAMatrix.scan, h]

/-- Witness for C10 at the matrix `⟨"x", 0, [], [], 0, 0, Forward⟩` (whose
length field is 0) and the empty sequence. -/
theorem new_empty_and_scan_len0_witness :
    (DNAMatrix.mk "x" 0 [] [] 0 0 Strand.Forward).length = 0 ∧
    (DNAMatrix.new "x" 0 [] Strand.Forward
        = some { name := "x", length := 0, probs := [], conservation := [],
                 max_score := 0, threshold := 0, strand := Strand.Forward } ∧
      (DNAMatrix.mk "x" 0 [] [] 0 0 Strand.Forward).scan ⟨[], []⟩ = none) :=
  ⟨rfl, new_empty_and_scan_len0 _ ⟨[], []⟩ "x" 0 Strand.Forward rfl⟩

/-- The counts table actually normalized by `new`: the given one for
Forward strand, its reverse complement for Reverse strand. -/
def effCounts (counts : List (List ℝ)) (strand : Strand) : List (List ℝ) :=
  match strand with
  | Strand.Forward => counts
  | Strand.Reverse => DNAMatrix.comp_rev_counts counts

lemma new_some_structure (name : String) (t : ℝ) (counts : List (List ℝ))
    (strand : Strand) (m : DNAMatrix)
    (h : DNAMatrix.new name t counts strand = some m) :
    ∃ probs, DNAMatrix.calculate_probs (effCounts counts strand) = some probs ∧
      m.probs = probs ∧
      m.conservation = DNAMatrix.calculate_conservation probs ∧
      m.max_score = DNAMatrix.calculate_max_score probs
        (DNAMatrix.calculate_conservation probs) ∧
      m.length = counts.length := by
  cases strand <;>
  · simp only [DNAMatrix.new, effCounts] at h ⊢
    rcases Option.map_eq_some'.mp h with ⟨probs, hp, rfl⟩
    exact ⟨probs, hp, rfl, rfl, rfl, rfl⟩

lemma probs_rows (counts : List (List ℝ)) (probs : List (List ℝ))
    (hp : DNAMatrix.calculate_probs counts = some probs) :
    (∀ row ∈ counts, row.length = 4) ∧
    probs = counts.map (fun position =>
      (position.map (fun x => x / foldMaxNegInf (counts.map (fun x => x.sum))))
        ++ [1 - position.sum / foldMaxNegInf (counts.map (fun x => x.sum))]) := by
  have h4 : ∀ row ∈ counts, row.length = 4 := by
    by_contra hc
    push_neg at hc
    rcases hc with ⟨row, hrow, hlen⟩
    rw [(calculate_probs_eq_none_iff counts).mpr ⟨row, hrow, hlen⟩] at hp
    exact Option.noConfusion hp
  have hsome := calculate_probs_eq_some counts h4
  rw [hsome] at hp
  exact ⟨h4, (Option.some_inj.mp hp).symm⟩

lemma sum_map_div (l : List ℝ) (c : ℝ) :
    (l.map (fun x => x / c)).sum = l.sum / c := by
  induction l with
  | nil => simp
  | cons a as ih => simp [ih, add_div]

/-- C5: for a nonempty counts table whose rows each have exactly 4
non-negative values and whose maximum row sum is positive, every derived
5-element probs row of the constructed matrix sums to exactly 1 in exact
arithmetic, for either strand. -/
theorem probs_rows_sum_one (name : String) (t : ℝ) (counts : List (List ℝ))
    (strand : Strand) (m : DNAMatrix)
    (_hne : counts ≠ [])
    (_h4 : ∀ row ∈ counts, row.length = 4)
    (_hnn : ∀ row ∈ counts, ∀ x ∈ row, 0 ≤ x)
    (_hpos : 0 < foldMaxNegInf (counts.map (fun r => r.sum)))
    (hnew : DNAMatrix.new name t counts strand = some m) :
    ∀ row ∈ m.probs, row.sum = 1 := by
  rcases new_some_structure _ _ _ _ _ hnew with ⟨probs, hp, hmp, -, -, -⟩
  rcases probs_rows _ _ hp with ⟨-, hstruct⟩
  intro row hrow
  rw [hmp, hstruct] at hrow
  rcases List.mem_map.mp hrow with ⟨p, -, rfl⟩
  rw [List.sum_append, sum_map_div]
  simp

lemma getD_of_lt {α : Type} (l : List α) (k : Nat) (h : k < l.length) (d : α) :
    l.getD k d = l[k] := by
  rw [List.getD_eq_getElem?_getD, List.getElem?_eq_getElem h]
  rfl

lemma getD_map_of_lt {α β : Type} (f : α → β) (l : List α) (k : Nat)
    (hk : k < l.length) (d : α) (d2 : β) :
    (l.map f).getD k d2 = f (l.getD k d) := by
  rw [getD_of_lt _ _ (by simpa using hk) d2, getD_of_lt _ _ hk d,
    List.getElem_map]

lemma effCounts_length (counts : List (List ℝ)) (strand : Strand) :
    (effCounts counts strand).length = counts.length := by
  cases strand <;> simp [effCounts, DNAMatrix.comp_rev_counts]

lemma probs_row_structure (counts : List (List ℝ)) (probs : List (List ℝ))
    (hp : DNAMatrix.calculate_probs counts = some probs) (k : Nat)
    (hk : k < probs.length) :
    probs.getD k []
      = ((counts.getD k []).map
          (fun x => x / foldMaxNegInf (counts.map (fun x => x.sum))))
        ++ [1 - (counts.getD k []).sum / foldMaxNegInf (counts.map (fun x => x.sum))] ∧
    (counts.getD k []).length = 4 := by
  rcases probs_rows _ _ hp with ⟨h4, hstruct⟩
  have hlen : probs.length = counts.length := by rw [hstruct, List.length_map]
  have hkc : k < counts.length := hlen ▸ hk
  constructor
  · rw [hstruct, getD_map_of_lt _ _ k hkc [] []]
  · exact h4 _ (by rw [getD_of_lt _ _ hkc []]; exact List.getElem_mem hkc)

lemma probs_row_length (counts : List (List ℝ)) (probs : List (List ℝ))
    (hp : DNAMatrix.calculate_probs counts = some probs) (k : Nat)
    (hk : k < probs.length) : (probs.getD k []).length = 5 := by
  rcases probs_row_structure _ _ hp k hk with ⟨hrow, h4⟩
  rw [hrow, List.length_append, List.length_map, h4]
  rfl

lemma foldl_pos_log (l : List ℝ) (acc : ℝ) :
    l.foldl (fun acc x => if x > 0 then acc + x * Real.log x else acc) acc
      = acc + ((l.filter (fun p => decide (0 < p))).map
          (fun p => p * Real.log p)).sum := by
  induction l generalizing acc with
  | nil => simp
  | cons a as ih =>
    by_cases ha : a > 0
    · rw [List.foldl_cons, if_pos ha, ih,
        List.filter_cons_of_pos (by simpa using ha), List.map_cons, List.sum_cons]
      ring
    · rw [List.foldl_cons, if_neg ha, ih,
        List.filter_cons_of_neg (by simpa using ha)]

/-- C6: for every constructed matrix, each position's probability row has 5
entries and its conservation weight equals
`1 + (Σ over the entries p with p > 0 of p * ln p) / ln 5`, zero-probability
entries contributing 0 to the sum. -/
theorem conservation_entropy (name : String) (t : ℝ) (counts : List (List ℝ))
    (strand : Strand) (m : DNAMatrix)
    (hnew : DNAMatrix.new name t counts strand = some m) :
    ∀ k < m.length,
      (m.probs.getD k []).length = 5 ∧
      m.conservation.getD k 0
        = 1 + (((m.probs.getD k []).filter (fun p => decide (0 < p))).map
            (fun p => p * Real.log p)).sum / Real.log 5 := by
  rcases new_some_structure _ _ _ _ _ hnew with ⟨probs, hp, hmp, hmc, -, hml⟩
  have hplen : probs.length = counts.length := by
    rcases probs_rows _ _ hp with ⟨-, hstruct⟩
    rw [hstruct, List.length_map, effCounts_length]
  intro k hk
  have hkp : k < probs.length := by
    rw [hplen, ← hml]
    exact hk
  have h5 : (probs.getD k []).length = 5 := probs_row_length _ _ hp k hkp
  rw [hmp, hmc]
  refine ⟨h5, ?_⟩
  rw [DNAMatrix.calculate_conservation, getD_map_of_lt _ _ k hkp [] 0,
    foldl_pos_log, zero_add, h5]
  push_cast
  ring

lemma foldl_add_enumFrom {β : Type} (f : Nat → β → ℝ) (l : List β) (d : β)
    (n : Nat) (acc : ℝ) :
    (l.enumFrom n).foldl (fun acc v => acc + f v.1 v.2) acc
      = acc + ((List.range l.length).map (fun k => f (n + k) (l.getD k d))).sum := by
  induction l generalizing n acc with
  | nil => simp
  | cons c cs ih =>
    rw [List.enumFrom_cons, List.foldl_cons, ih]
    rw [List.length_cons, List.range_succ_eq_map, List.map_cons, List.map_map,
      List.sum_cons, ← add_assoc]
    have htail : List.map ((fun k => f (n + k) ((c :: cs).getD k d)) ∘ Nat.succ)
          (List.range cs.length)
        = List.map (fun k => f (n + 1 + k) (cs.getD k d)) (List.range cs.length) := by
      refine List.map_congr_left fun k _ => ?_
      simp only [Function.comp_apply, Nat.succ_eq_add_one, List.getD_cons_succ]
      congr 1
      omega
    rw [htail]
    simp

lemma foldMaxNegInf_take4 (a b c d : ℝ) (rest : List ℝ) :
    foldMaxNegInf ((a :: b :: c :: d :: rest).take 4)
      = max (max (max a b) c) d := rfl

/-- C7: for every constructed matrix, maxScore equals the sum over the
positions of (the maximum of the first 4 probability entries of that
position, the residual 5th excluded) times that position's conservation
weight. -/
theorem max_score_eq (name : String) (t : ℝ) (counts : List (List ℝ))
    (strand : Strand) (m : DNAMatrix)
    (hnew : DNAMatrix.new name t counts strand = some m) :
    m.max_score = ((List.range m.length).map (fun k =>
      max (max (max ((m.probs.getD k []).getD 0 0) ((m.probs.getD k []).getD 1 0))
          ((m.probs.getD k []).getD 2 0)) ((m.probs.getD k []).getD 3 0)
        * m.conservation.getD k 0)).sum := by
  rcases new_some_structure _ _ _ _ _ hnew with ⟨probs, hp, hmp, hmc, hms, hml⟩
  have hplen : probs.length = counts.length := by
    rcases probs_rows _ _ hp with ⟨-, hstruct⟩
    rw [hstruct, List.length_map, effCounts_length]
  rw [hms, hmp, hmc, hml, ← hplen, DNAMatrix.calculate_max_score,
    enum_foldlM_eq_enumFrom,
    foldl_add_enumFrom
      (fun i x => (DNAMatrix.calculate_conservation probs).getD i 0 * x)
      (probs.map (fun p => foldMaxNegInf (p.take 4))) (0:ℝ) 0 0,
    zero_add, List.length_map]
  refine congrArg List.sum (List.map_congr_left fun k hk => ?_)
  have hkp : k < probs.length := List.mem_range.mp hk
  rw [Nat.zero_add, getD_map_of_lt _ _ k hkp [] 0]
  have h5 : (probs.getD k []).length = 5 := probs_row_length _ _ hp k hkp
  obtain ⟨a, b, c2, d2, rest, hrow⟩ :
      ∃ a b c2 d2 rest, probs.getD k [] = a :: b :: c2 :: d2 :: rest := by
    rcases hl : probs.getD k [] with - | ⟨a, - | ⟨b, - | ⟨c2, - | ⟨d2, rest⟩⟩⟩⟩ <;>
      first
      | exact ⟨a, b, c2, d2, rest, rfl⟩
      | (exfalso; rw [hl] at h5; simp at h5)
  rw [hrow, foldMaxNegInf_take4]
  simp only [List.getD_cons_zero, List.getD_cons_succ]
  ring

/-- C4: the reverse-complement counts transform (reverse the row order and
reverse each row) is an involution, and consequently building a
Reverse-strand matrix from the reverse-complemented counts reproduces the
original Forward matrix's derived probs and conservation. -/
theorem comp_rev_counts_involution (v : List (List ℝ)) (name : String)
    (t : ℝ) (counts : List (List ℝ)) :
    DNAMatrix.comp_rev_counts (DNAMatrix.comp_rev_counts v) = v ∧
    (DNAMatrix.new name t (DNAMatrix.comp_rev_counts counts) Strand.Reverse).map
        (fun m => (m.probs, m.conservation))
      = (DNAMatrix.new name t counts Strand.Forward).map
        (fun m => (m.probs, m.conservation)) := by
  have hinv : ∀ w : List (List ℝ),
      DNAMatrix.comp_rev_counts (DNAMatrix.comp_rev_counts w) = w := by
    intro w
    simp [DNAMatrix.comp_rev_counts, List.map_reverse, List.map_map,
      Function.comp_def]
  refine ⟨hinv v, ?_⟩
  simp only [DNAMatrix.new, hinv counts]
  cases hp : DNAMatrix.calculate_probs counts with
  | none => simp
  | some probs => simp

lemma fromStr_foldl (l : List (Nat × Char)) (init : Sequence) :
    l.foldl (fun s b => { idxs := s.idxs ++ [b.1], bases := s.bases ++ [b.2] }) init
      = ⟨init.idxs ++ l.map Prod.fst, init.bases ++ l.map Prod.snd⟩ := by
  induction l generalizing init with
  | nil => simp
  | cons a as ih =>
    rw [List.foldl_cons, ih]
    simp

lemma fromStr_eq (raw : List Char) :
    Sequence.fromStr raw
      = ⟨(raw.enum.filter (fun b => !(b.2 == '-'))).map Prod.fst,
         (raw.enum.filter (fun b => !(b.2 == '-'))).map Prod.snd⟩ := by
  unfold Sequence.fromStr
  rw [fromStr_foldl]
  simp

lemma fromStr_idxs_sorted (raw : List Char) :
    (Sequence.fromStr raw).idxs.Pairwise (· < ·) := by
  rw [fromStr_eq]
  have hsub : List.Sublist
      ((raw.enum.filter (fun b => !(b.2 == '-'))).map Prod.fst)
      (raw.enum.map Prod.fst) := (List.filter_sublist _).map _
  rw [List.enum_map_fst] at hsub
  exact List.Pairwise.sublist hsub (List.pairwise_lt_range _)

lemma gap_not_mem_fromStr (raw : List Char) :
    '-' ∉ (Sequence.fromStr raw).bases := by
  rw [fromStr_eq]
  intro hmem
  rcases List.mem_map.mp hmem with ⟨p, hp, hsnd⟩
  have hpred := (List.mem_filter.mp hp).2
  rw [hsnd] at hpred
  simp at hpred

lemma scan_mem_forward (m : DNAMatrix) (seq : Sequence) (l : List Score)
    (sc : Score) (hst : m.strand = Strand.Forward)
    (hscan : m.scan seq = some l) (hmem : sc ∈ l) :
    ∃ i raw,
      sc = { seq_start := i + 1, seq_end := i + m.length,
             algn_start := seq.idxs.getD (i + 1 - 1) 0 + 1,
             algn_end := seq.idxs.getD (i + m.length - 1) 0 + 1,
             score := raw / m.max_score } := by
  by_cases hL : m.length = 0
  · rw [DNAMatrix.scan, if_pos hL] at hscan
    exact Option.noConfusion hscan
  · simp only [DNAMatrix.scan, hst, if_neg hL] at hscan
    rcases Option.map_eq_some'.mp hscan with ⟨raws, -, rfl⟩
    rcases List.mem_filter.mp hmem with ⟨hmem2, -⟩
    rcases List.mem_map.mp hmem2 with ⟨v, -, rfl⟩
    exact ⟨v.1, v.2, rfl⟩

lemma scan_mem_reverse (m : DNAMatrix) (seq : Sequence) (l : List Score)
    (sc : Score) (hst : m.strand = Strand.Reverse)
    (hscan : m.scan seq = some l) (hmem : sc ∈ l) :
    ∃ i raw,
      sc = { seq_start := i + m.length, seq_end := i + 1,
             algn_start := seq.idxs.getD (i + m.length - 1) 0 + 1,
             algn_end := seq.idxs.getD (i + 1 - 1) 0 + 1,
             score := raw / m.max_score } := by
  by_cases hL : m.length = 0
  · rw [DNAMatrix.scan, if_pos hL] at hscan
    exact Option.noConfusion hscan
  · simp only [DNAMatrix.scan, hst, if_neg hL] at hscan
    rcases Option.map_eq_some'.mp hscan with ⟨raws, -, rfl⟩
    rcases List.mem_filter.mp hmem with ⟨hmem2, -⟩
    rcases List.mem_map.mp hmem2 with ⟨v, -, rfl⟩
    exact ⟨v.1, v.2, rfl⟩

/-- C2: constructing a `Sequence` from a raw string records, left to right,
the original 0-based index and the character of every non-gap character
(equal lengths, strictly increasing positions); every Score emitted by a
subsequent scan has `algn_start = idxs[i + s − 1] + 1` and
`algn_end = idxs[i + e − 1] + 1` for its own window index `i` — the one with
`seq_start = i + s` and `seq_end = i + e`, where `(s, e)` are the strand's
boundary offsets; and the example `"-ACG-TACG"` yields
positions `[1,2,3,5,6,7,8]` and bases `ACGTACG`. -/
theorem fromStr_records_and_aligns (raw : List Char) (m : DNAMatrix)
    (l : List Score) (sc : Score)
    (hscan : m.scan (Sequence.fromStr raw) = some l) (hmem : sc ∈ l) :
    (Sequence.fromStr raw).idxs
        = (raw.enum.filter (fun b => !(b.2 == '-'))).map Prod.fst ∧
    (Sequence.fromStr raw).bases
        = (raw.enum.filter (fun b => !(b.2 == '-'))).map Prod.snd ∧
    (Sequence.fromStr raw).idxs.length = (Sequence.fromStr raw).bases.length ∧
    (Sequence.fromStr raw).idxs.Pairwise (· < ·) ∧
    (∃ i,
      (m.strand = Strand.Forward →
        sc.seq_start = i + 1 ∧
        sc.seq_end = i + m.length ∧
        sc.algn_start = (Sequence.fromStr raw).idxs.getD (i + 1 - 1) 0 + 1 ∧
        sc.algn_end
          = (Sequence.fromStr raw).idxs.getD (i + m.length - 1) 0 + 1) ∧
      (m.strand = Strand.Reverse →
        sc.seq_start = i + m.length ∧
        sc.seq_end = i + 1 ∧
        sc.algn_start
          = (Sequence.fromStr raw).idxs.getD (i + m.length - 1) 0 + 1 ∧
        sc.algn_end = (Sequence.fromStr raw).idxs.getD (i + 1 - 1) 0 + 1)) ∧
    Sequence.fromStr "-ACG-TACG".toList
        = ⟨[1, 2, 3, 5, 6, 7, 8], "ACGTACG".toList⟩ := by
  refine ⟨by rw [fromStr_eq], by rw [fromStr_eq], ?_, fromStr_idxs_sorted raw,
    ?_, by decide⟩
  · rw [fromStr_eq]
    simp
  · cases hst : m.strand with
    | Forward =>
      rcases scan_mem_forward m _ l sc hst hscan hmem with ⟨i, r, rfl⟩
      exact ⟨i, fun _ => ⟨rfl, rfl, rfl, rfl⟩,
        fun hcontra => Strand.noConfusion hcontra⟩
    | Reverse =>
      rcases scan_mem_reverse m _ l sc hst hscan hmem with ⟨i, r, rfl⟩
      exact ⟨i, fun hcontra => Strand.noConfusion hcontra,
        fun _ => ⟨rfl, rfl, rfl, rfl⟩⟩

/-- C3 (amended): for every matrix with length at least 2, every Score
emitted by `scan` has `seq_start < seq_end` on the Forward strand and
`seq_start > seq_end` on the Reverse strand.  (As stated — for every length
at least 1 — the claim fails: a length-1 matrix emits scores with
`seq_start = seq_end`; see the counterexample.) -/
theorem scan_strand_bounds (m : DNAMatrix) (seq : Sequence) (l : List Score)
    (sc : Score) (h2 : 2 ≤ m.length) (hscan : m.scan seq = some l)
    (hmem : sc ∈ l) :
    (m.strand = Strand.Forward → sc.seq_start < sc.seq_end) ∧
    (m.strand = Strand.Reverse → sc.seq_end < sc.seq_start) := by
  constructor
  · intro hst
    rcases scan_mem_forward m seq l sc hst hscan hmem with ⟨i, r, rfl⟩
    show i + 1 < i + m.length
    omega
  · intro hst
    rcases scan_mem_reverse m seq l sc hst hscan hmem with ⟨i, r, rfl⟩
    show i + 1 < i + m.length
    omega

lemma lookup_valid_of_eq_some {b : Char} {j : Nat}
    (h : DNAMatrix.lookup b = some j) : validBase b := by
  unfold DNAMatrix.lookup at h
  split at h <;> first | decide | exact Option.noConfusion h

lemma lookup_eq_none_of_invalid {b : Char} (h : ¬ validBase b) :
    DNAMatrix.lookup b = none := by
  cases hl : DNAMatrix.lookup b with
  | none => rfl
  | some j => exact absurd (lookup_valid_of_eq_some hl) h

lemma foldlM_lookup_none (g : Nat → Nat → ℝ) (w : List Char)
    (hbad : ∃ b ∈ w, ¬ validBase b) (n : Nat) (acc : ℝ) :
    (w.enumFrom n).foldlM (fun a ib =>
        (DNAMatrix.lookup ib.2).map (fun j => a + g ib.1 j)) acc = none := by
  induction w generalizing n acc with
  | nil =>
    rcases hbad with ⟨b, hb, -⟩
    cases hb
  | cons c cs ih =>
    rw [List.enumFrom_cons, List.foldlM_cons]
    by_cases hc : validBase c
    · rw [lookup_eq_of_valid hc]
      have hcs : ∃ b ∈ cs, ¬ validBase b := by
        rcases hbad with ⟨b, hb, hnb⟩
        rcases List.mem_cons.mp hb with rfl | hb
        · exact absurd hc hnb
        · exact ⟨b, hb, hnb⟩
      show ((some (acc + g n (lookupSpec c))).bind fun a =>
        (cs.enumFrom (n + 1)).foldlM _ a) = none
      rw [Option.some_bind]
      exact ih hcs (n + 1) _
    · rw [lookup_eq_none_of_invalid hc]
      rfl

lemma scan_none_of_invalid (m : DNAMatrix) (seq : Sequence) (i k : Nat)
    (hL : 1 ≤ m.length) (hk : k < m.length)
    (hwin : i + m.length ≤ seq.bases.length)
    (hbad : ¬ validBase (seq.bases.getD (i + k) 'A')) :
    m.scan seq = none := by
  have hL0 : ¬ m.length = 0 := by omega
  simp only [DNAMatrix.scan, if_neg hL0]
  rw [Option.map_eq_none']
  rw [mapM_eq_none_iff]
  refine ⟨(seq.bases.drop i).take m.length, ?_, ?_⟩
  · rw [windowsL]
    exact List.mem_map.mpr ⟨i, List.mem_range.mpr (by omega), rfl⟩
  · have hwl : ((seq.bases.drop i).take m.length).length = m.length := by
      simp only [List.length_take, List.length_drop]
      omega
    have hkw : k < ((seq.bases.drop i).take m.length).length := by omega
    have hgd : ((seq.bases.drop i).take m.length).getD k 'A'
        = seq.bases.getD (i + k) 'A' := by
      simp only [List.getD_eq_getElem?_getD]
      rw [List.getElem?_take_of_lt (by omega), List.getElem?_drop]
    have hex : ∃ b ∈ (seq.bases.drop i).take m.length, ¬ validBase b := by
      refine ⟨((seq.bases.drop i).take m.length).getD k 'A', ?_, ?_⟩
      · rw [getD_of_lt _ _ hkw 'A']
        exact List.getElem_mem hkw
      · rw [hgd]
        exact hbad
    rw [enum_foldlM_eq_enumFrom]
    exact foldlM_lookup_none
      (fun p j => (m.probs.getD p []).getD j 0 * m.conservation.getD p 0)
      _ hex 0 0

/-- C9: for every matrix with length `L ≥ 1` and every sequence built from a
raw string whose gap-free bases contain, inside some length-`L` window, a
character that is not one of A/C/G/T in either case, `scan` hits the
unrecognized-base panic (embedded as `none`) and produces no result; the gap
character never triggers this, because it is removed at construction. -/
theorem scan_unrecognized_base (m : DNAMatrix) (raw : List Char) (i k : Nat)
    (hL : 1 ≤ m.length) (hk : k < m.length)
    (hwin : i + m.length ≤ (Sequence.fromStr raw).bases.length)
    (hbad : ¬ validBase ((Sequence.fromStr raw).bases.getD (i + k) 'A')) :
    m.scan (Sequence.fromStr raw) = none ∧
    '-' ∉ (Sequence.fromStr raw).bases :=
  ⟨scan_none_of_invalid m _ i k hL hk hwin hbad, gap_not_mem_fromStr raw⟩

/-! ### Concrete evaluations used by counterexamples and witnesses -/

lemma new_example_eval :
    DNAMatrix.new "m" (1/2 : ℝ) [[2, 0, 0, 0]] Strand.Forward
      = some (DNAMatrix.mk "m" 1 [[1, 0, 0, 0, 0]] [1] 1 (1/2) Strand.Forward) := by
  norm_num [DNAMatrix.new, DNAMatrix.calculate_probs, foldMaxNegInf,
    DNAMatrix.calculate_conservation, DNAMatrix.calculate_max_score,
    List.mapM, List.mapM.loop, Real.log_one, List.enum, List.enumFrom]

lemma scan_example1_eval :
    (DNAMatrix.mk "m" 1 [[1, 0, 0, 0, 0]] [1] 1 (1/2) Strand.Forward).scan
        ⟨[0], ['A']⟩ = some [⟨1, 1, 1, 1, 1⟩] := by
  norm_num [DNAMatrix.scan, windowsL, DNAMatrix.lookup, List.mapM,
    List.mapM.loop, List.range_succ, List.foldlM, List.enum, List.enumFrom,
    List.filter]

lemma scan_example2_eval :
    (DNAMatrix.mk "m" 2 [[1, 0, 0, 0, 0], [1, 0, 0, 0, 0]] [1, 1] 2 0
        Strand.Forward).scan ⟨[0, 1], ['A', 'A']⟩
      = some [⟨1, 2, 1, 2, 1⟩] := by
  norm_num [DNAMatrix.scan, windowsL, DNAMatrix.lookup, List.mapM,
    List.mapM.loop, List.range_succ, List.foldlM, List.enum, List.enumFrom,
    List.filter]

lemma scan_gap_example_eval :
    (DNAMatrix.mk "m" 1 [[1, 0, 0, 0, 0]] [1] 1 0 Strand.Forward).scan
        (Sequence.fromStr "-A".toList) = some [⟨1, 1, 2, 2, 1⟩] := by
  have hfs : Sequence.fromStr "-A".toList = ⟨[1], ['A']⟩ := by decide
  rw [hfs]
  norm_num [DNAMatrix.scan, windowsL, DNAMatrix.lookup, List.mapM,
    List.mapM.loop, List.range_succ, List.foldlM, List.enum, List.enumFrom,
    List.filter]

/-- Counterexample to C3 as stated: the Forward matrix constructed from the
one-row counts table `[[2,0,0,0]]` has length 1 (so length ≥ 1) and emits,
on the sequence "A", the score `⟨1, 1, 1, 1, 1⟩`, whose `seq_start` is not
strictly less than its `seq_end`. -/
theorem scan_len1_start_eq_end :
    DNAMatrix.new "m" (1/2 : ℝ) [[2, 0, 0, 0]] Strand.Forward
        = some (DNAMatrix.mk "m" 1 [[1, 0, 0, 0, 0]] [1] 1 (1/2) Strand.Forward) ∧
    (DNAMatrix.mk "m" 1 [[1, 0, 0, 0, 0]] [1] 1 (1/2) Strand.Forward).strand
        = Strand.Forward ∧
    1 ≤ (DNAMatrix.mk "m" 1 [[1, 0, 0, 0, 0]] [1] 1 (1/2)
        Strand.Forward).length ∧
    (DNAMatrix.mk "m" 1 [[1, 0, 0, 0, 0]] [1] 1 (1/2) Strand.Forward).scan
        ⟨[0], ['A']⟩ = some [⟨1, 1, 1, 1, 1⟩] ∧
    ¬ (⟨1, 1, 1, 1, 1⟩ : Score).seq_start < (⟨1, 1, 1, 1, 1⟩ : Score).seq_end :=
  ⟨new_example_eval, rfl, le_refl 1, scan_example1_eval, Nat.lt_irrefl 1⟩

/-! ### Witnesses -/

/-- Witness for C1 at a concrete length-1 Forward matrix and the
sequence "A". -/
theorem scan_eq_scanSpec_witness :
    1 ≤ (DNAMatrix.mk "m" 1 [[1, 0, 0, 0, 0]] [1] 1 0 Strand.Forward).length ∧
    (DNAMatrix.mk "m" 1 [[1, 0, 0, 0, 0]] [1] 1 0 Strand.Forward).max_score ≠ 0 ∧
    (∀ b ∈ (Sequence.mk [0] ['A']).bases, validBase b) ∧
    (DNAMatrix.mk "m" 1 [[1, 0, 0, 0, 0]] [1] 1 0 Strand.Forward).length
        ≤ (Sequence.mk [0] ['A']).bases.length ∧
    (DNAMatrix.mk "m" 1 [[1, 0, 0, 0, 0]] [1] 1 0 Strand.Forward).scan
        ⟨[0], ['A']⟩
      = some (scanSpec (DNAMatrix.mk "m" 1 [[1, 0, 0, 0, 0]] [1] 1 0
          Strand.Forward) ⟨[0], ['A']⟩) :=
  ⟨le_refl 1, one_ne_zero, by decide, le_refl 1,
    scan_eq_scanSpec _ _ (le_refl 1) one_ne_zero (by decide) (le_refl 1)⟩

/-- Witness for C2 at the gapped input "-A" and a concrete length-1 matrix
whose scan emits one Score. -/
theorem fromStr_records_and_aligns_witness :
    (DNAMatrix.mk "m" 1 [[1, 0, 0, 0, 0]] [1] 1 0 Strand.Forward).scan
        (Sequence.fromStr "-A".toList) = some [⟨1, 1, 2, 2, 1⟩] ∧
    (⟨1, 1, 2, 2, 1⟩ : Score) ∈ [(⟨1, 1, 2, 2, 1⟩ : Score)] ∧
    (Sequence.fromStr "-A".toList).idxs.Pairwise (· < ·) ∧
    Sequence.fromStr "-ACG-TACG".toList
        = ⟨[1, 2, 3, 5, 6, 7, 8], "ACGTACG".toList⟩ :=
  have h := fromStr_records_and_aligns "-A".toList _ _ _
    scan_gap_example_eval (List.mem_singleton_self _)
  ⟨scan_gap_example_eval, List.mem_singleton_self _, h.2.2.2.1, h.2.2.2.2.2⟩

/-- Witness for the amended C3 at a concrete length-2 Forward matrix and
the sequence "AA". -/
theorem scan_strand_bounds_witness :
    2 ≤ (DNAMatrix.mk "m" 2 [[1, 0, 0, 0, 0], [1, 0, 0, 0, 0]] [1, 1] 2 0
        Strand.Forward).length ∧
    (DNAMatrix.mk "m" 2 [[1, 0, 0, 0, 0], [1, 0, 0, 0, 0]] [1, 1] 2 0
        Strand.Forward).scan ⟨[0, 1], ['A', 'A']⟩ = some [⟨1, 2, 1, 2, 1⟩] ∧
    (⟨1, 2, 1, 2, 1⟩ : Score) ∈ [(⟨1, 2, 1, 2, 1⟩ : Score)] ∧
    ((DNAMatrix.mk "m" 2 [[1, 0, 0, 0, 0], [1, 0, 0, 0, 0]] [1, 1] 2 0
        Strand.Forward).strand = Strand.Forward →
      (⟨1, 2, 1, 2, 1⟩ : Score).seq_start < (⟨1, 2, 1, 2, 1⟩ : Score).seq_end) :=
  ⟨le_refl 2, scan_example2_eval, List.mem_singleton_self _,
    (scan_strand_bounds _ _ _ _ (le_refl 2) scan_example2_eval
      (List.mem_singleton_self _)).1⟩

/-- Witness for C5 at the counts table `[[2,0,0,0]]`, Forward strand. -/
theorem probs_rows_sum_one_witness :
    ([[2, 0, 0, 0]] : List (List ℝ)) ≠ [] ∧
    (∀ row ∈ ([[2, 0, 0, 0]] : List (List ℝ)), row.length = 4) ∧
    (∀ row ∈ ([[2, 0, 0, 0]] : List (List ℝ)), ∀ x ∈ row, 0 ≤ x) ∧
    0 < foldMaxNegInf (([[2, 0, 0, 0]] : List (List ℝ)).map (fun r => r.sum)) ∧
    DNAMatrix.new "m" (1/2) [[2, 0, 0, 0]] Strand.Forward
        = some (DNAMatrix.mk "m" 1 [[1, 0, 0, 0, 0]] [1] 1 (1/2)
            Strand.Forward) ∧
    ∀ row ∈ (DNAMatrix.mk "m" 1 [[1, 0, 0, 0, 0]] [1] 1 (1/2)
        Strand.Forward).probs, row.sum = 1 :=
  ⟨by simp, by norm_num, by norm_num, by norm_num [foldMaxNegInf],
    new_example_eval,
    probs_rows_sum_one "m" (1/2) [[2, 0, 0, 0]] Strand.Forward _
      (by simp) (by norm_num) (by norm_num) (by norm_num [foldMaxNegInf])
      new_example_eval⟩

/-- Witness for C6 at the counts table `[[2,0,0,0]]`, Forward strand. -/
theorem conservation_entropy_witness :
    DNAMatrix.new "m" (1/2) [[2, 0, 0, 0]] Strand.Forward
        = some (DNAMatrix.mk "m" 1 [[1, 0, 0, 0, 0]] [1] 1 (1/2)
            Strand.Forward) ∧
    ∀ k < (DNAMatrix.mk "m" 1 [[1, 0, 0, 0, 0]] [1] 1 (1/2)
        Strand.Forward).length,
      ((DNAMatrix.mk "m" 1 [[1, 0, 0, 0, 0]] [1] 1 (1/2)
          Strand.Forward).probs.getD k []).length = 5 ∧
      (DNAMatrix.mk "m" 1 [[1, 0, 0, 0, 0]] [1] 1 (1/2)
          Strand.Forward).conservation.getD k 0
        = 1 + ((((DNAMatrix.mk "m" 1 [[1, 0, 0, 0, 0]] [1] 1 (1/2)
              Strand.Forward).probs.getD k []).filter
              (fun p => decide (0 < p))).map (fun p => p * Real.log p)).sum
            / Real.log 5 :=
  ⟨new_example_eval,
    conservation_entropy "m" (1/2) [[2, 0, 0, 0]] Strand.Forward _
      new_example_eval⟩

/-- Witness for C7 at the counts table `[[2,0,0,0]]`, Forward strand. -/
theorem max_score_eq_witness :
    DNAMatrix.new "m" (1/2) [[2, 0, 0, 0]] Strand.Forward
        = some (DNAMatrix.mk "m" 1 [[1, 0, 0, 0, 0]] [1] 1 (1/2)
            Strand.Forward) ∧
    (DNAMatrix.mk "m" 1 [[1, 0, 0, 0, 0]] [1] 1 (1/2) Strand.Forward).max_score
      = ((List.range (DNAMatrix.mk "m" 1 [[1, 0, 0, 0, 0]] [1] 1 (1/2)
            Strand.Forward).length).map (fun k =>
          max (max (max (((DNAMatrix.mk "m" 1 [[1, 0, 0, 0, 0]] [1] 1 (1/2)
                Strand.Forward).probs.getD k []).getD 0 0)
              (((DNAMatrix.mk "m" 1 [[1, 0, 0, 0, 0]] [1] 1 (1/2)
                Strand.Forward).probs.getD k []).getD 1 0))
              (((DNAMatrix.mk "m" 1 [[1, 0, 0, 0, 0]] [1] 1 (1/2)
                Strand.Forward).probs.getD k []).getD 2 0))
              (((DNAMatrix.mk "m" 1 [[1, 0, 0, 0, 0]] [1] 1 (1/2)
                Strand.Forward).probs.getD k []).getD 3 0)
            * (DNAMatrix.mk "m" 1 [[1, 0, 0, 0, 0]] [1] 1 (1/2)
                Strand.Forward).conservation.getD k 0)).sum :=
  ⟨new_example_eval,
    max_score_eq "m" (1/2) [[2, 0, 0, 0]] Strand.Forward _ new_example_eval⟩

/-- Witness for C9 at the raw input "N" (whose single gap-free base is the
invalid 'N') and a concrete length-1 matrix. -/
theorem scan_unrecognized_base_witness :
    1 ≤ (DNAMatrix.mk "m" 1 [[1, 0, 0, 0, 0]] [1] 1 (1/2)
        Strand.Forward).length ∧
    (0 : Nat) < (DNAMatrix.mk "m" 1 [[1, 0, 0, 0, 0]] [1] 1 (1/2)
        Strand.Forward).length ∧
    0 + (DNAMatrix.mk "m" 1 [[1, 0, 0, 0, 0]] [1] 1 (1/2)
        Strand.Forward).length ≤ (Sequence.fromStr "N".toList).bases.length ∧
    ¬ validBase ((Sequence.fromStr "N".toList).bases.getD (0 + 0) 'A') ∧
    ((DNAMatrix.mk "m" 1 [[1, 0, 0, 0, 0]] [1] 1 (1/2) Strand.Forward).scan
        (Sequence.fromStr "N".toList) = none ∧
      '-' ∉ (Sequence.fromStr "N".toList).bases) :=
  ⟨le_refl 1, Nat.one_pos, by decide, by decide,
    scan_unrecognized_base _ "N".toList 0 0 (le_refl 1) Nat.one_pos
      (by decide) (by decide)⟩

end TFBS
